import Mathlib

/-!
Verification of the directive-driven source-linkage generator
(`tasks/modules/transformers.ts` of grunt-ts).

Strings are modelled as `List Char` (`Str`).  File contents, lines and
paths are all `Str`.  JavaScript string primitives (`split`, `join`,
`trim`, `includes`, `endsWith`, default `sort`) and the Node `path`
functions used by the source are translated below.  Paths are assumed to
be well-formed normalized relative paths (the spec, §4.3, makes malformed
path input undefined behaviour by contract), so the test that `path.relative(a, b)`
is empty is modelled as equality of paths and `path.join` as slash concatenation.
-/

set_option autoImplicit false

abbrev Str := List Char

/-- Model of `a.startsWith b` on JavaScript strings. -/
def startsWithStr : Str → Str → Bool
  | _, [] => true
  | [], _ :: _ => false
  | c :: s, d :: t => c == d && startsWithStr s t

/-- Model of `_str.endsWith(s, suffix)`. -/
def endsWithStr (s suffix : Str) : Bool :=
  startsWithStr s.reverse suffix.reverse

/-- Model of `_str.contains(s, sub)` (substring containment). -/
def strContains (s sub : Str) : Bool :=
  if startsWithStr s sub then true
  else
    match s with
    | [] => false
    | _ :: t => strContains t sub

/-- Model of `s.split(sep)` for a single-character separator (used with `','` and,
for the path model, `'/'`). -/
def splitOnChar (sep : Char) : Str → List Str
  | [] => [[]]
  | c :: rest =>
    if c = sep then [] :: splitOnChar sep rest
    else
      match splitOnChar sep rest with
      | [] => [[c]]
      | l :: ls => (c :: l) :: ls

/-- Model of `parts.join(sep)` on JavaScript arrays of strings. -/
def joinSep (sep : Str) : List Str → Str
  | [] => []
  | [x] => x
  | x :: xs => x ++ sep ++ joinSep sep xs

/-- Model of `contents.split(/\r\n|\r|\n/)` — split on the three common line-ending
conventions (transformers.ts line 245). -/
def splitLines : Str → List Str
  | [] => [[]]
  | '\r' :: '\n' :: rest => [] :: splitLines rest
  | '\r' :: rest => [] :: splitLines rest
  | '\n' :: rest => [] :: splitLines rest
  | c :: rest =>
    match splitLines rest with
    | [] => [[c]]
    | l :: ls => (c :: l) :: ls

/-- The ASCII part of JavaScript's `\s` character class (sufficient for the
directive grammar, whose whitespace is spaces and tabs). -/
def isJsSpace (c : Char) : Bool :=
  c == ' ' || c == '\t' || c == '\n' || c == '\r' || c == '\x0b' || c == '\x0c'

/-- JavaScript `s.trim()`. -/
def trim (s : Str) : Str :=
  ((s.dropWhile isJsSpace).reverse.dropWhile isJsSpace).reverse

/-- JavaScript `s.toLowerCase()` (the source only applies it to ASCII names). -/
def toLowerStr (s : Str) : Str := s.map Char.toLower

/-- JavaScript string `<` comparison: lexicographic by code unit. -/
def strLe (a b : Str) : Bool :=
  match a, b with
  | [], _ => true
  | _ :: _, [] => false
  | c :: s, d :: t => if c = d then strLe s t else decide (c < d)

/-- Insertion step of `Array.prototype.sort()` on strings. -/
def insertStr (x : Str) : List Str → List Str
  | [] => [x]
  | y :: ys => if strLe x y then x :: y :: ys else y :: insertStr x ys

/-- Model of `filesInDir.sort()` — JavaScript default sort, i.e. lexicographic string
order (transformers.ts line 60). -/
def sortStrs : List Str → List Str
  | [] => []
  | x :: xs => insertStr x (sortStrs xs)

/-- Last element of a list of segments (`[]` for the empty list). -/
def lastSeg : List Str → Str
  | [] => []
  | [x] => x
  | _ :: xs => lastSeg xs

/-- Model of `path.basename(p)` on well-formed relative paths: the last
slash-separated segment. -/
def basename (p : Str) : Str := lastSeg (splitOnChar '/' p)

/-- Model of `path.dirname(p)` on well-formed relative paths. -/
def dirname (p : Str) : Str :=
  let segs := splitOnChar '/' p
  if segs.length ≤ 1 then ".".data
  else joinSep "/".data segs.dropLast

/-- Model of `path.basename(p, ext)`: the base name with the suffix `ext` stripped
when the base name ends with `ext` and is not equal to it. -/
def basenameStrip (p ext : Str) : Str :=
  let b := basename p
  if endsWithStr b ext && !(b == ext) then b.take (b.length - ext.length) else b

/-- Suffix of `s` starting at its last `'.'`, or `[]` when `s` has no `'.'`. -/
def extFromTail : Str → Str
  | [] => []
  | c :: rest =>
    let e := extFromTail rest
    if e ≠ [] then e else if c = '.' then c :: rest else []

/-- Model of `path.extname(p)`: extension of the base name, ignoring a dot in the
leading position (so `".ts"` has no extension). -/
def extname (p : Str) : Str :=
  match basename p with
  | [] => []
  | _ :: rest => extFromTail rest

/-- Model of `path.join(a, b)` on well-formed relative paths (a directory joined with
a file name). -/
def pathJoin (a b : Str) : Str :=
  if a == ".".data then b else a ++ "/".data ++ b

/-- Model of the test that `path.relative(a, b)` is empty, as equality of well-formed
normalized relative paths. -/
def pathRelEq (a b : Str) : Bool := a == b

/-- Segment lists with their common prefix removed. -/
def stripCommon : List Str → List Str → List Str × List Str
  | a :: as, b :: bs => if a == b then stripCommon as bs else (a :: as, b :: bs)
  | as, bs => (as, bs)

/-- Modelled from the spec: `utils.makeRelativePath` lives in
`tasks/modules/utils.ts`, which is not under `src/`.  Per §1 the tool
"computes and materializes the exact relative path": the relative path from
directory `fromDir` to `toPath` over well-formed relative paths, written
with forward slashes and a leading `./` when it does not ascend. -/
def makeRelativePath (fromDir toPath : Str) : Str :=
  let fromSegs := if fromDir == ".".data then [] else splitOnChar '/' fromDir
  let toSegs := splitOnChar '/' toPath
  let p := stripCommon fromSegs toSegs
  if p.1 = [] then "./".data ++ joinSep "/".data p.2
  else joinSep "/".data (p.1.map (fun _ => "..".data) ++ p.2)

/-- Model of `completePathToFile.replace(/(?:\.d)?\.ts$/, '')`
(transformers.ts line 157). -/
def removeTsExt (p : Str) : Str :=
  if endsWithStr p ".d.ts".data then p.take (p.length - 5)
  else if endsWithStr p ".ts".data then p.take (p.length - 3)
  else p

/-- Model of `contents.replace(/^﻿/, '')` — strip a leading byte-order marker
(transformers.ts line 238). -/
def stripBOMStr : Str → Str
  | '﻿' :: rest => rest
  | s => s

/-! ### The file-system snapshot and the run environment -/

/-- The disk as seen through `fs.existsSync` / `fs.lstatSync(..).isDirectory()`
and directory enumeration: the sets of existing file and directory paths. -/
structure FileSystem where
  files : List Str
  dirs : List Str

/-- Model of `fs.existsSync p`. -/
def existsSyncB (fs : FileSystem) (p : Str) : Bool :=
  fs.files.contains p || fs.dirs.contains p

/-- Model of `fs.lstatSync(p).isDirectory()`. -/
def isDirB (fs : FileSystem) (p : Str) : Bool := fs.dirs.contains p

/-- Modelled from the spec: `utils.getFiles` lives in
`tasks/modules/utils.ts`, which is not under `src/`.  Per §4.1 step 2 the
directory branch "yields every file inside that directory" subject to the
exclusion callback, whose polarity (returning `true` excludes the entry) is
fixed by the source comment `// exclude current file` above `return true`
and by spec condition (a); sub-directories are not returned as entries. -/
def getFilesM (fs : FileSystem) (dirPath : Str) (exclude : Str → Bool) : List Str :=
  fs.files.filter (fun f => dirname f == dirPath && !(exclude f))

/-- The per-run snapshot: `currentTargetFiles`, `currentTargetDirs`
(transformers.ts lines 13-14, set at lines 225-226) and the disk. -/
structure Env where
  targetFiles : List Str
  targetDirs : List Str
  fs : FileSystem

/-- Inner loop of `getTargetFolders`: walk `path.dirname` ancestors until
reaching `'.'` or an already-seen directory (transformers.ts lines 75-80).
`fuel` bounds the walk; `dirname` reaches a fixed point within
`length dir + 2` steps on well-formed relative paths, after which the
membership test stops the source's `while` loop as well. -/
def walkUp : Nat → Str → List Str → List Str
  | 0, _, folders => folders
  | fuel + 1, dir, folders =>
    if dir ≠ ".".data ∧ ¬ dir ∈ folders then
      walkUp fuel (dirname dir) (folders ++ [dir])
    else folders

/-- Model of `getTargetFolders(targetFiles)` (transformers.ts lines 72-83): every
ancestor directory of a target file, excluding the root marker `'.'`,
first-insertion order. -/
def getTargetFolders (targetFiles : List Str) : List Str :=
  targetFiles.foldl (fun folders f => walkUp (f.length + 2) (dirname f) folders) []

/-! ### The directive matcher family

A closed set of tagged variants, one per transformer class of the source
(`ImportTransformer`, `ExportTransformer`, `ReferenceTransformer`,
`UnknownTransformer`). -/

inductive TKind | importT | exportT | refT | unknownT
deriving DecidableEq

/-- Model of `key` of each transformer (`UnknownTransformer` overwrites its key to
`unknown` in its constructor). -/
def keyStr : TKind → Str
  | .importT => "import".data
  | .exportT => "export".data
  | .refT => "ref".data
  | .unknownT => "unknown".data

/-- Model of `signatureGenerated`, the string `///ts:<key>:generated`
(`UnknownTransformer` overwrites it with the same shape). -/
def sigGen : TKind → Str
  | .importT => "///ts:import:generated".data
  | .exportT => "///ts:export:generated".data
  | .refT => "///ts:ref:generated".data
  | .unknownT => "///ts:unknown:generated".data

/-- Model of `variableSyntax` constructor argument of each transformer. -/
def variableSyntax : TKind → Str
  | .importT => "<fileOrDirectoryName>[,<variableName>]".data
  | .exportT => "<fileOrDirectoryName>[,<variableName>]".data
  | .refT => "<fileOrDirectoryName>".data
  | .unknownT => []

/-- Model of `syntaxError` of each transformer, the string
`/// Invalid syntax for ts:<key>=<variableSyntax> <signatureGenerated>`;
`UnknownTransformer` overwrites it with
`/// Unknown transform <signatureGenerated>`. -/
def transSyntaxError : TKind → Str
  | .unknownT => "/// Unknown transform ".data ++ sigGen .unknownT
  | k =>
    "/// Invalid syntax for ts:".data ++ keyStr k ++ "=".data ++ variableSyntax k
      ++ " ".data ++ sigGen k

/-- Model of `getIndexIfDir` constructor argument: `true` for `ImportTransformer`,
`false` for `ExportTransformer` and `ReferenceTransformer`. -/
def kindGetIndexIfDir : TKind → Bool
  | .importT => true
  | _ => false

/-- Model of `removeExtensionFromFilePath` constructor argument: `true` for import and
export, `false` for `ReferenceTransformer`. -/
def kindRemoveExt : TKind → Bool
  | .refT => false
  | _ => true

/-- Model of `isGenerated(line)`: the line contains this kind's generated marker
(transformers.ts lines 110-112). -/
def isGeneratedK (k : TKind) (line : Str) : Bool := strContains line (sigGen k)

/-- Model of the test `_.some(transformers, t => t.isGenerated(line))` over the fixed
transformer array (transformers.ts line 257). -/
def isGeneratedAny (line : Str) : Bool :=
  isGeneratedK .importT line || isGeneratedK .exportT line
    || isGeneratedK .refT line || isGeneratedK .unknownT line

/-- The common prefix of every matcher regex `^///\s*ts:...`: consume
`///`, then whitespace, then `ts:`, returning the remainder. -/
def afterSig (line : Str) : Option Str :=
  if startsWithStr line "///".data then
    let r := (line.drop 3).dropWhile isJsSpace
    if startsWithStr r "ts:".data then some (r.drop 3) else none
  else none

/-- Model of `BaseTransformer.containsTransformSignature`: test of
`/\/\/\/\s*ts\:/` anywhere in the content (transformers.ts lines 118-120). -/
def containsTransformSignature : Str → Bool
  | [] => false
  | c :: t => (afterSig (c :: t)).isSome || containsTransformSignature t

/-- Model of `matches(line)`: the captures `(match[1], match[2])` of
`^///\s*ts:key(=?)(.*)` for the three named kinds; the key of
`UnknownTransformer` is the regex `(.*)`, so its `match[1]` greedily captures the whole
remainder and its `match[2]` (the `=?` group) is always empty. -/
def matchesK (k : TKind) (line : Str) : Option (Str × Str) :=
  match afterSig line with
  | none => none
  | some r =>
    match k with
    | .unknownT => some (r, [])
    | k' =>
      if startsWithStr r (keyStr k') then
        let r2 := r.drop (keyStr k').length
        if startsWithStr r2 "=".data then some ("=".data, r2.drop 1)
        else some ([], r2)
      else none

/-- Model of `match[1] && match[2] && match[2].trim()` (transformers.ts line 269):
the JavaScript `&&` chain on strings, whose only falsy value is the empty
string. -/
def configOf (m1 m2 : Str) : Str :=
  if m1 = [] then [] else if m2 = [] then [] else trim m2

/-- Alias derivation of `BaseImportExportTransformer.transform`
(transformers.ts lines 151-155): `requestedVariableName ||` the base name
with `.ts` and then `.d` stripped; if the result lowercases to `index` it
is replaced by the enclosing directory's name. -/
def deriveFilename (requestedVariableName completePathToFile : Str) : Str :=
  let filename :=
    if requestedVariableName ≠ [] then requestedVariableName
    else basenameStrip (basenameStrip completePathToFile ".ts".data) ".d".data
  if toLowerStr filename == "index".data then basename (dirname completePathToFile)
  else filename

/-- The `_.template` text of each kind (transformers.ts lines 179, 189-190,
199).  The export template embeds `os.EOL` between its two statements and
interpolates `signatureGenerated` after the first. -/
def kindTemplate : TKind → Str → Str → Str → Str
  | .importT, _, filename, pathToFile =>
    "import ".data ++ filename ++ " = require('".data ++ pathToFile ++ "');".data
  | .exportT, eol, filename, pathToFile =>
    "import ".data ++ filename ++ "_file = require('".data ++ pathToFile
      ++ "'); ".data ++ sigGen .exportT ++ eol
      ++ "export var ".data ++ filename ++ " = ".data ++ filename ++ "_file;".data
  | .refT, _, _, pathToFile =>
    "/// <reference path=\"".data ++ pathToFile ++ "\"/>".data
  | .unknownT, _, _, _ => []

/-- The file-name predicate of `getImports` (transformers.ts lines 24-28):
the base name equals the requested name fully, `.d.ts`-stripped, or
`.ts`-stripped. -/
def fileNameMatches (name targetFile : Str) : Bool :=
  basename targetFile == name
    || basenameStrip targetFile ".d.ts".data == name
    || basenameStrip targetFile ".ts".data == name

/-- The exclusion callback passed to `utils.getFiles`
(transformers.ts lines 52-58): exclude the current file; otherwise exclude
entries that have an extension, are not plain `.ts` files (i.e. do not end
in `.ts`, or end in `.d.ts`), and are not directories. -/
def dirExcludeB (fs : FileSystem) (currentFilePath filename : Str) : Bool :=
  if pathRelEq currentFilePath filename then true
  else
    !(extname filename == []) &&
      (!(endsWithStr filename ".ts".data) || endsWithStr filename ".d.ts".data) &&
      !(isDirB fs filename)

/-- Model of `getImports(currentFilePath, name, targetFiles, targetDirs, getIndexIfDir)`
(transformers.ts lines 20-66). -/
def getImports (fs : FileSystem) (currentFilePath name : Str)
    (targetFiles targetDirs : List Str) (getIndexIfDir : Bool) : List Str :=
  let files : List Str := []
  let files :=
    match targetFiles.find? (fun targetFile => fileNameMatches name targetFile) with
    | some targetFile => files ++ [targetFile]
    | none => files
  match targetDirs.find? (fun targetDir => basename targetDir == name) with
  | none => files
  | some targetDir =>
    let possibleIndexFilePath := pathJoin targetDir "index.ts".data
    if getIndexIfDir && existsSyncB fs possibleIndexFilePath
        && !(pathRelEq currentFilePath possibleIndexFilePath) then
      files ++ [possibleIndexFilePath]
    else
      files ++ sortStrs (getFilesM fs targetDir (dirExcludeB fs currentFilePath))

/-- Model of `transform(sourceFile, templateVars)` of each kind
(transformers.ts lines 141-173 and 211-213). -/
def transformK (env : Env) (eol : Str) (k : TKind) (sourceFile templateVars : Str) :
    List Str :=
  match k with
  | .unknownT => [transSyntaxError .unknownT]
  | k' =>
    if templateVars ≠ [] then
      let vars := splitOnChar ',' templateVars
      let requestedFileName := trim (vars.headD [])
      let requestedVariableName := if vars.length > 1 then trim (vars.getD 1 []) else []
      let sourceFileDirectory := dirname sourceFile
      let imports := getImports env.fs sourceFile requestedFileName env.targetFiles
        env.targetDirs (kindGetIndexIfDir k')
      if imports ≠ [] then
        imports.map (fun completePathToFile =>
          let filename := deriveFilename requestedVariableName completePathToFile
          let pathToFile := makeRelativePath sourceFileDirectory
            (if kindRemoveExt k' then removeTsExt completePathToFile
             else completePathToFile)
          kindTemplate k' eol filename pathToFile ++ " ".data ++ sigGen k')
      else
        ["/// No file or directory matched name \"".data ++ requestedFileName
          ++ "\" ".data ++ sigGen k']
    else [transSyntaxError k']

/-- The first transformer of the priority-ordered array
`[import, export, ref, unknown]` whose `matches` succeeds on the line,
with its captures — the `_.some` of transformers.ts lines 262-273. -/
def firstMatch (line : Str) : Option (TKind × Str × Str) :=
  match matchesK .importT line with
  | some m => some (.importT, m.1, m.2)
  | none =>
    match matchesK .exportT line with
    | some m => some (.exportT, m.1, m.2)
    | none =>
      match matchesK .refT line with
      | some m => some (.refT, m.1, m.2)
      | none =>
        match matchesK .unknownT line with
        | some m => some (.unknownT, m.1, m.2)
        | none => none

/-- The per-line effect of the rewrite loop body: a generated line is
dropped; a directive line is kept and followed by its transform output; any
other line is kept unchanged. -/
def stepLine (env : Env) (eol sourceFile line : Str) : List Str :=
  if isGeneratedAny line then []
  else
    match firstMatch line with
    | some km => line :: transformK env eol km.1 sourceFile (configOf km.2.1 km.2.2)
    | none => [line]

/-- The `for` loop of `transformFiles` (transformers.ts lines 248-280) with
its `outputLines` accumulator. -/
def transformLoop (env : Env) (eol sourceFile : Str) :
    List Str → List Str → List Str
  | outputLines, [] => outputLines
  | outputLines, line :: rest =>
    if isGeneratedAny line then transformLoop env eol sourceFile outputLines rest
    else
      match firstMatch line with
      | some km =>
        transformLoop env eol sourceFile
          (outputLines ++ line ::
            transformK env eol km.1 sourceFile (configOf km.2.1 km.2.2)) rest
      | none => transformLoop env eol sourceFile (outputLines ++ [line]) rest

/-- Lines 245-281 of `transformFiles` applied unconditionally: split into
lines, run the rewrite loop, join with the host line ending. -/
def rewriteContent (env : Env) (eol sourceFile contents : Str) : Str :=
  joinSep eol (transformLoop env eol sourceFile [] (splitLines contents))

/-- The content produced for one changed file, fast-skip included
(transformers.ts lines 238-281): contents without a directive signature are
left untouched. -/
def transformContent (env : Env) (eol sourceFile contents : Str) : Str :=
  if containsTransformSignature contents then rewriteContent env eol sourceFile contents
  else contents

/-- One iteration of the `transformFiles` file loop on the raw bytes read from
disk: strips the leading byte-order marker, fast-skips signature-free
contents and returns `some newContent` exactly when
`grunt.file.write` is invoked (transformers.ts lines 237-285). -/
def processChangedFile (env : Env) (eol fileToProcess raw : Str) : Option Str :=
  let contents := stripBOMStr raw
  if containsTransformSignature contents then
    let transformedContent := rewriteContent env eol fileToProcess contents
    if transformedContent ≠ contents then some transformedContent else none
  else none

/-- Whether the write primitive fires for a file whose post-BOM contents are
`contents`. -/
def writeOccursB (env : Env) (eol sourceFile contents : Str) : Bool :=
  containsTransformSignature contents
    && !(transformContent env eol sourceFile contents == contents)

/-! ### Newline-free strings

The spec (§4.3) assumes well-formed relative paths; in particular they
contain no line terminators, which is what the idempotence of the rewrite
loop rests on. -/

/-- Predicate: `s` contains no carriage return and no line feed. -/
def cleanStrB (s : Str) : Bool := s.all (fun c => !(c == '\r') && !(c == '\n'))

/-- Every string of the list is newline-free. -/
def cleanListB (l : List Str) : Bool := l.all cleanStrB

/-- Every path of the run environment is newline-free. -/
def cleanEnvB (e : Env) : Bool :=
  cleanListB e.targetFiles && cleanListB e.targetDirs
    && cleanListB e.fs.files && cleanListB e.fs.dirs

/-- An end-of-line separator as far as `splitLines` is concerned: both
`"\n"` and `"\r\n"` — the two possible values of `os.EOL` — satisfy it. -/
def EolSpec (eol : Str) : Prop := ∀ s, splitLines (eol ++ s) = [] :: splitLines s

/-- A string that `joinSep eol` and `splitLines` round-trip: it is a
join of newline-free physical lines. -/
def GoodElem (eol e : Str) : Prop :=
  ∃ ps : List Str, ps ≠ [] ∧ (∀ p ∈ ps, cleanStrB p = true) ∧ e = joinSep eol ps

/-- The file-name half of the resolver: the first Target File Set entry
matching the requested name, as a zero- or one-element list. -/
def fileMatchList (name : Str) (tf : List Str) : List Str :=
  (tf.find? (fun targetFile => fileNameMatches name targetFile)).toList

/-- The directory half of the resolver: the contribution of a matching
target directory (empty when no directory's base name matches). -/
def dirResolvePart (fs : FileSystem) (cur name : Str) (td : List Str) (g : Bool) :
    List Str :=
  match td.find? (fun targetDir => basename targetDir == name) with
  | none => []
  | some targetDir =>
    if g && existsSyncB fs (pathJoin targetDir "index.ts".data)
        && !(pathRelEq cur (pathJoin targetDir "index.ts".data)) then
      [pathJoin targetDir "index.ts".data]
    else sortStrs (getFilesM fs targetDir (dirExcludeB fs cur))

/-! ### Claim-side definitions (stated from the claims' wording, for
comparison with the source translation) -/

/-- C4's words: a declaration file's plain variant (`.d.ts` replaced by
`.ts`) is absent from the Target File Set. -/
def plainVariantMissing (fs : FileSystem) (f : Str) : Bool :=
  !(fs.files.contains (f.take (f.length - 5) ++ ".ts".data))

/-- The directory expansion exactly as C4 words it: member files of the
directory that are not the current file, have a file extension, are not
declaration-only variants unless no plain variant exists, and are not
sub-directories — sorted lexicographically. -/
def specC4DirMembers (fs : FileSystem) (cur d : Str) : List Str :=
  sortStrs (fs.files.filter (fun f =>
    dirname f == d && !(pathRelEq cur f) && !(extname f == []) &&
      (!(endsWithStr f ".d.ts".data) || plainVariantMissing fs f) &&
      !(isDirB fs f)))

/-- The alias exactly as C6 words it: the explicit second parameter when
supplied, and otherwise the stripped base name, replaced by the enclosing
directory's name exactly when that base name is literally `"index"`. -/
def specAliasC6 (explicitAlias completePath : Str) : Str :=
  if explicitAlias ≠ [] then explicitAlias
  else
    let b := basenameStrip (basenameStrip completePath ".ts".data) ".d".data
    if b == "index".data then basename (dirname completePath) else b

/-- The signature keyword of a directive line as C7 words it: the text after
the `///ts:` signature up to the first `=`. -/
def sigKeyword (line : Str) : Option Str :=
  (afterSig line).map (fun r => r.takeWhile (fun c => !(c == '=')))

example : splitLines "a\r\nb\rc\nd".data = ["a".data, "b".data, "c".data, "d".data] := by decide
example : splitLines "".data = ["".data] := by decide
example : splitLines "a\r\n".data = ["a".data, "".data] := by decide
example : basename "test/fail/work.ts".data = "work.ts".data := by decide
example : dirname "test/fail/work.ts".data = "test/fail".data := by decide
example : dirname "work.ts".data = ".".data := by decide
example : basenameStrip "a/index.ts".data ".ts".data = "index".data := by decide
example : basenameStrip "a/x.d.ts".data ".d.ts".data = "x".data := by decide
example : basenameStrip "a/x.html".data ".ts".data = "x.html".data := by decide
example : extname "d/a.html".data = ".html".data := by decide
example : extname "d/a".data = [] := by decide
example : extname "d/.ts".data = [] := by decide
example : extname "a.d.ts".data = ".ts".data := by decide
example : removeTsExt "a/b.d.ts".data = "a/b".data := by decide
example : removeTsExt "a/b.ts".data = "a/b".data := by decide
example : removeTsExt "a/b.html".data = "a/b.html".data := by decide
example : sortStrs ["b.ts".data, "a.ts".data] = ["a.ts".data, "b.ts".data] := by decide
example : trim "  x ".data = "x".data := by decide
example : joinSep ",".data ["a".data, "b".data] = "a,b".data := by decide
example : makeRelativePath ".".data "d/Index".data = "./d/Index".data := by decide
example : makeRelativePath "a/b".data "a/c/x".data = "../c/x".data := by decide

theorem clean_mono {m s : Str} (hsub : ∀ c ∈ m, c ∈ s) (hs : cleanStrB s = true) :
    cleanStrB m = true := by
  rw [cleanStrB, List.all_eq_true] at *
  exact fun c hc => hs c (hsub c hc)

theorem clean_append {a b : Str} (ha : cleanStrB a = true) (hb : cleanStrB b = true) :
    cleanStrB (a ++ b) = true := by
  rw [cleanStrB] at ha hb ⊢
  rw [List.all_append, ha, hb]
  rfl

theorem clean_char {s : Str} (hs : cleanStrB s = true) {c : Char} (hc : c ∈ s) :
    c ≠ '\r' ∧ c ≠ '\n' := by
  rw [cleanStrB, List.all_eq_true] at hs
  have h := hs c hc
  constructor <;> intro hx <;> subst hx <;> simp at h

theorem clean_cons {c : Char} {s : Str} (hr : c ≠ '\r') (hn : c ≠ '\n')
    (hs : cleanStrB s = true) : cleanStrB (c :: s) = true := by
  rw [cleanStrB, List.all_cons]
  rw [cleanStrB] at hs
  rw [hs]
  simp [hr, hn]

/-! ### Splitting and joining lines -/

theorem splitLines_ne_nil (s : Str) : splitLines s ≠ [] := by
  rw [splitLines.eq_def]
  split <;> (try split) <;> simp

theorem splitLines_cons_clean {c : Char} (hr : c ≠ '\r') (hn : c ≠ '\n') (rest : Str) :
    splitLines (c :: rest) =
      (c :: (splitLines rest).headI) :: (splitLines rest).tail := by
  rw [splitLines.eq_def]
  split
  · rename_i h; simp at h
  · rename_i h; simp at h; exact absurd h.1 hr
  · rename_i h; simp at h; exact absurd h.1 hr
  · rename_i h; simp at h; exact absurd h.1 hn
  · rename_i h1 h2 h3
    injection h3 with hc hrest
    subst hc
    subst hrest
    split
    · rename_i hnil; exact absurd hnil (splitLines_ne_nil rest)
    · rename_i l ls hcons
      simp [hcons]

theorem eolSpec_lf : EolSpec ['\n'] := fun _ => rfl

theorem eolSpec_crlf : EolSpec ['\r', '\n'] := fun _ => rfl

theorem joinSep_one (sep x : Str) : joinSep sep [x] = x := rfl

theorem joinSep_cons2 (sep x y : Str) (xs : List Str) :
    joinSep sep (x :: y :: xs) = x ++ sep ++ joinSep sep (y :: xs) := rfl

theorem clean_of_cons {c : Char} {l : Str} (h : cleanStrB (c :: l) = true) :
    cleanStrB l = true := by
  rw [cleanStrB, List.all_eq_true] at h ⊢
  exact fun x hx => h x (List.mem_cons_of_mem c hx)

theorem splitLines_append_clean {l : Str} (hl : cleanStrB l = true) (s : Str) :
    splitLines (l ++ s) =
      (l ++ (splitLines s).headI) :: (splitLines s).tail := by
  induction l with
  | nil =>
    simp only [List.nil_append]
    obtain ⟨x, xs, hx⟩ := List.exists_cons_of_ne_nil (splitLines_ne_nil s)
    rw [hx]; simp
  | cons c l ih =>
    have hc := clean_char hl (List.mem_cons_self c l)
    rw [List.cons_append, splitLines_cons_clean hc.1 hc.2, ih (clean_of_cons hl)]
    simp

theorem splitLines_of_clean : ∀ {l : Str}, cleanStrB l = true → splitLines l = [l]
  | [], _ => rfl
  | c :: l, h => by
    have hc := clean_char h (List.mem_cons_self c l)
    rw [splitLines_cons_clean hc.1 hc.2, splitLines_of_clean (clean_of_cons h)]
    rfl

theorem splitLines_clean_eol {eol : Str} (he : EolSpec eol) {l : Str}
    (hl : cleanStrB l = true) (s : Str) :
    splitLines (l ++ eol ++ s) = l :: splitLines s := by
  rw [List.append_assoc, splitLines_append_clean hl, he s]
  simp

/-- The function `splitLines` recovers the parts of a `joinSep eol` of newline-free
strings. -/
theorem splitLines_joinSep_clean {eol : Str} (he : EolSpec eol) :
    ∀ {ps : List Str}, ps ≠ [] → (∀ p ∈ ps, cleanStrB p = true) →
      splitLines (joinSep eol ps) = ps
  | [], h, _ => absurd rfl h
  | [p], _, hcl => by
    rw [joinSep_one, splitLines_of_clean (hcl p (List.mem_singleton.mpr rfl))]
  | p :: q :: rest, _, hcl => by
    rw [joinSep_cons2]
    rw [splitLines_clean_eol he (hcl p (List.mem_cons_self p (q :: rest)))]
    rw [splitLines_joinSep_clean he (List.cons_ne_nil q rest)
      (fun x hx => hcl x (List.mem_cons_of_mem p hx))]

theorem splitLines_joinSep_clean_eol {eol : Str} (he : EolSpec eol) :
    ∀ {ps : List Str}, ps ≠ [] → (∀ p ∈ ps, cleanStrB p = true) → ∀ s,
      splitLines (joinSep eol ps ++ eol ++ s) = ps ++ splitLines s
  | [], h, _, _ => absurd rfl h
  | [p], _, hcl, s => by
    rw [joinSep_one, splitLines_clean_eol he (hcl p (List.mem_singleton.mpr rfl))]
    rfl
  | p :: q :: rest, _, hcl, s => by
    rw [joinSep_cons2]
    rw [List.append_assoc (p ++ eol), List.append_assoc (p ++ eol)]
    rw [splitLines_clean_eol he (hcl p (List.mem_cons_self p (q :: rest)))]
    rw [splitLines_joinSep_clean_eol he (List.cons_ne_nil q rest)
      (fun x hx => hcl x (List.mem_cons_of_mem p hx)) s]
    rfl

theorem goodElem_clean {eol e : Str} (hcl : cleanStrB e = true) : GoodElem eol e :=
  ⟨[e], List.cons_ne_nil e [], by simpa using hcl, rfl⟩

theorem goodElem_two {eol A R : Str} (hA : cleanStrB A = true)
    (hR : cleanStrB R = true) : GoodElem eol (A ++ eol ++ R) :=
  ⟨[A, R], List.cons_ne_nil A [R], by
    intro p hp
    rcases List.mem_cons.mp hp with rfl | hp2
    · exact hA
    · rw [List.mem_singleton.mp hp2]; exact hR,
    by rw [joinSep_cons2, joinSep_one]⟩

theorem goodElem_splitLines {eol e : Str} (he : EolSpec eol) (hg : GoodElem eol e) :
    joinSep eol (splitLines e) = e ∧ splitLines e ≠ [] ∧
      ∀ p ∈ splitLines e, cleanStrB p = true := by
  obtain ⟨ps, hne, hcl, rfl⟩ := hg
  rw [splitLines_joinSep_clean he hne hcl]
  exact ⟨rfl, hne, hcl⟩

/-- Splitting a join of round-trippable elements yields the concatenation
of each element's physical lines. -/
theorem splitLines_joinSep_flat {eol : Str} (he : EolSpec eol) :
    ∀ {out : List Str}, out ≠ [] → (∀ e ∈ out, GoodElem eol e) →
      splitLines (joinSep eol out) = (out.map splitLines).flatten
  | [], h, _ => absurd rfl h
  | [e], _, hgood => by
    obtain ⟨-, -, -⟩ := goodElem_splitLines he (hgood e (List.mem_singleton.mpr rfl))
    rw [joinSep_one]
    simp
  | e :: f :: rest, _, hgood => by
    obtain ⟨pse, psne, pscl⟩ :=
      goodElem_splitLines he (hgood e (List.mem_cons_self e (f :: rest)))
    rw [joinSep_cons2]
    conv_lhs => rw [← pse]
    rw [splitLines_joinSep_clean_eol he psne pscl]
    rw [splitLines_joinSep_flat he (List.cons_ne_nil f rest)
      (fun x hx => hgood x (List.mem_cons_of_mem e hx))]
    simp

/-! ### Substring containment and the generated markers -/

theorem startsWithStr_refl : ∀ s : Str, startsWithStr s s = true
  | [] => rfl
  | c :: t => by rw [startsWithStr, startsWithStr_refl t]; simp

theorem strContains_nil (sub : Str) : strContains [] sub = startsWithStr [] sub := by
  rw [strContains]
  split_ifs with h <;> simp [h]

theorem strContains_cons (c : Char) (t sub : Str) :
    strContains (c :: t) sub = (startsWithStr (c :: t) sub || strContains t sub) := by
  rw [strContains]
  split_ifs with h <;> simp [h]

/-- A string that ends with `m` contains `m`. -/
theorem strContains_suffix : ∀ (x m : Str), strContains (x ++ m) m = true
  | [], m => by
    cases m with
    | nil => rfl
    | cons c t => rw [List.nil_append, strContains_cons, startsWithStr_refl]; rfl
  | x :: xs, m => by
    rw [List.cons_append, strContains_cons, strContains_suffix xs m]
    simp

theorem isGeneratedAny_of {k : TKind} {p : Str} (h : isGeneratedK k p = true) :
    isGeneratedAny p = true := by
  cases k <;> simp [isGeneratedAny, h]

/-! ### Character-subset lemmas: the strings the engine builds from
newline-free inputs are newline-free -/

theorem splitOnChar_ne_nil (sep : Char) (s : Str) : splitOnChar sep s ≠ [] := by
  rw [splitOnChar.eq_def]
  split <;> (try split) <;> (try split) <;> simp

theorem splitOnChar_cons_ne {sep c : Char} (h : ¬ c = sep) (rest : Str) :
    splitOnChar sep (c :: rest) =
      (c :: (splitOnChar sep rest).headI) :: (splitOnChar sep rest).tail := by
  rw [splitOnChar.eq_def]
  simp only [if_neg h]
  split
  · rename_i hnil; exact absurd hnil (splitOnChar_ne_nil sep rest)
  · rename_i l ls hcons; simp [hcons]

theorem splitOnChar_subset {sep : Char} :
    ∀ {s : Str} {part : Str}, part ∈ splitOnChar sep s → ∀ {c : Char}, c ∈ part → c ∈ s := by
  intro s
  induction s with
  | nil =>
    intro part hp c hc
    simp [splitOnChar] at hp
    subst hp
    cases hc
  | cons a rest ih =>
    intro part hp c hc
    by_cases ha : a = sep
    · subst ha
      rw [show splitOnChar a (a :: rest) = [] :: splitOnChar a rest from by
        rw [splitOnChar]; simp] at hp
      rcases List.mem_cons.mp hp with rfl | hp2
      · cases hc
      · exact List.mem_cons_of_mem a (ih hp2 hc)
    · rw [splitOnChar_cons_ne ha] at hp
      rcases List.mem_cons.mp hp with rfl | hp2
      · rcases List.mem_cons.mp hc with rfl | hc2
        · exact List.mem_cons_self c rest
        · obtain ⟨x, xs, hx⟩ := List.exists_cons_of_ne_nil (splitOnChar_ne_nil sep rest)
          have : (splitOnChar sep rest).headI ∈ splitOnChar sep rest := by
            rw [hx]; exact List.mem_cons_self x xs
          exact List.mem_cons_of_mem a (ih this hc2)
      · have : part ∈ splitOnChar sep rest := by
          obtain ⟨x, xs, hx⟩ := List.exists_cons_of_ne_nil (splitOnChar_ne_nil sep rest)
          rw [hx] at hp2 ⊢
          exact List.mem_cons_of_mem x hp2
        exact List.mem_cons_of_mem a (ih this hc)

theorem lastSeg_cons2 (x y : Str) (xs : List Str) :
    lastSeg (x :: y :: xs) = lastSeg (y :: xs) := rfl

theorem lastSeg_nil_or_mem : ∀ l : List Str, lastSeg l = [] ∨ lastSeg l ∈ l
  | [] => Or.inl rfl
  | [x] => Or.inr (List.mem_singleton.mpr rfl)
  | x :: y :: xs => by
    rcases lastSeg_nil_or_mem (y :: xs) with h | h
    · exact Or.inl (by rw [lastSeg_cons2]; exact h)
    · exact Or.inr (by rw [lastSeg_cons2]; exact List.mem_cons_of_mem x h)

theorem basename_subset {p : Str} {c : Char} (hc : c ∈ basename p) : c ∈ p := by
  rcases lastSeg_nil_or_mem (splitOnChar '/' p) with h | h
  · rw [basename, h] at hc; cases hc
  · exact splitOnChar_subset h hc

theorem basename_clean {p : Str} (hp : cleanStrB p = true) :
    cleanStrB (basename p) = true :=
  clean_mono (fun _ hc => basename_subset hc) hp

theorem joinSep_clean {sep : Str} (hsep : cleanStrB sep = true) :
    ∀ {ps : List Str}, (∀ p ∈ ps, cleanStrB p = true) → cleanStrB (joinSep sep ps) = true
  | [], _ => rfl
  | [p], h => by rw [joinSep_one]; exact h p (List.mem_singleton.mpr rfl)
  | p :: q :: rest, h => by
    rw [joinSep_cons2]
    exact clean_append (clean_append (h p (List.mem_cons_self p (q :: rest))) hsep)
      (joinSep_clean hsep (fun x hx => h x (List.mem_cons_of_mem p hx)))

theorem dirname_clean {p : Str} (hp : cleanStrB p = true) :
    cleanStrB (dirname p) = true := by
  rw [dirname]
  split
  · decide
  · exact joinSep_clean (by decide)
      (fun x hx => clean_mono
        (fun c hc => splitOnChar_subset (List.dropLast_subset _ hx) hc) hp)

theorem take_clean {s : Str} (hs : cleanStrB s = true) (n : Nat) :
    cleanStrB (s.take n) = true :=
  clean_mono (fun _ hc => List.take_subset n s hc) hs

theorem basenameStrip_clean {p : Str} (hp : cleanStrB p = true) (ext : Str) :
    cleanStrB (basenameStrip p ext) = true := by
  rw [basenameStrip]
  split
  · exact take_clean (basename_clean hp) _
  · exact basename_clean hp

theorem trim_subset {s : Str} {c : Char} (hc : c ∈ trim s) : c ∈ s := by
  rw [trim] at hc
  rw [List.mem_reverse] at hc
  have h1 := (List.dropWhile_sublist isJsSpace).subset hc
  rw [List.mem_reverse] at h1
  exact (List.dropWhile_sublist isJsSpace).subset h1

theorem trim_clean {s : Str} (hs : cleanStrB s = true) : cleanStrB (trim s) = true :=
  clean_mono (fun _ hc => trim_subset hc) hs

theorem removeTsExt_clean {p : Str} (hp : cleanStrB p = true) :
    cleanStrB (removeTsExt p) = true := by
  rw [removeTsExt]
  split
  · exact take_clean hp _
  · split
    · exact take_clean hp _
    · exact hp

theorem pathJoin_clean {a b : Str} (ha : cleanStrB a = true) (hb : cleanStrB b = true) :
    cleanStrB (pathJoin a b) = true := by
  rw [pathJoin]
  split
  · exact hb
  · exact clean_append (clean_append ha (by decide)) hb

theorem stripCommon_nil_left (b : List Str) : stripCommon [] b = ([], b) := rfl

theorem stripCommon_nil_right (a : Str) (as : List Str) :
    stripCommon (a :: as) [] = (a :: as, []) := rfl

theorem stripCommon_cons (a b : Str) (as bs : List Str) :
    stripCommon (a :: as) (b :: bs) =
      if a == b then stripCommon as bs else (a :: as, b :: bs) := rfl

theorem stripCommon_snd_subset :
    ∀ (a b : List Str) {x : Str}, x ∈ (stripCommon a b).2 → x ∈ b
  | [], _, _, hx => hx
  | _ :: _, [], _, hx => by rw [stripCommon_nil_right] at hx; exact hx
  | a :: as, b :: bs, x, hx => by
    rw [stripCommon_cons] at hx
    split at hx
    · exact List.mem_cons_of_mem b (stripCommon_snd_subset as bs hx)
    · exact hx

theorem makeRelativePath_clean {fromDir toPath : Str}
    (htp : cleanStrB toPath = true) :
    cleanStrB (makeRelativePath fromDir toPath) = true := by
  have hparts : ∀ a : List Str, ∀ x ∈ (stripCommon a (splitOnChar '/' toPath)).2,
      cleanStrB x = true := by
    intro a x hx
    exact clean_mono
      (fun c hc => splitOnChar_subset (stripCommon_snd_subset _ _ hx) hc) htp
  rw [makeRelativePath]
  split <;> (try split) <;>
    first
      | exact clean_append (by decide) (joinSep_clean (by decide) (hparts _))
      | · refine joinSep_clean (by decide) ?_
          intro x hx
          rcases List.mem_append.mp hx with h | h
          · obtain ⟨y, -, hy⟩ := List.mem_map.mp h
            rw [← hy]; decide
          · exact hparts _ x h

theorem mem_insertStr {x y : Str} {l : List Str} :
    x ∈ insertStr y l ↔ x = y ∨ x ∈ l := by
  induction l with
  | nil => simp [insertStr]
  | cons z zs ih =>
    rw [insertStr]
    split
    · simp
    · rw [List.mem_cons, ih, List.mem_cons]
      tauto

theorem mem_sortStrs {x : Str} : ∀ {l : List Str}, x ∈ sortStrs l ↔ x ∈ l
  | [] => Iff.rfl
  | y :: ys => by
    rw [sortStrs, mem_insertStr, mem_sortStrs, List.mem_cons]

theorem getImports_eq (fs : FileSystem) (cur name : Str) (tf td : List Str)
    (g : Bool) :
    getImports fs cur name tf td g =
      fileMatchList name tf ++ dirResolvePart fs cur name td g := by
  rw [getImports, fileMatchList, dirResolvePart]
  rcases h1 : tf.find? (fun targetFile => fileNameMatches name targetFile) with - | t <;>
    rcases h2 : td.find? (fun targetDir => basename targetDir == name) with - | d <;>
      simp only [Option.toList, List.nil_append, List.append_nil] <;>
      (try split) <;> simp

theorem getImports_mem {fs : FileSystem} {cur name : Str}
    {tf td : List Str} {g : Bool} {x : Str}
    (hx : x ∈ getImports fs cur name tf td g) :
    x ∈ tf ∨ (∃ d ∈ td, x = pathJoin d "index.ts".data) ∨ x ∈ fs.files := by
  rw [getImports_eq] at hx
  rcases List.mem_append.mp hx with h | h
  · rw [fileMatchList] at h
    rcases h1 : tf.find? (fun targetFile => fileNameMatches name targetFile) with - | t <;>
      rw [h1] at h <;> simp at h
    subst h
    exact Or.inl (List.mem_of_find?_eq_some h1)
  · rw [dirResolvePart] at h
    rcases h2 : td.find? (fun targetDir => basename targetDir == name) with - | d
    · simp only [h2] at h
      simp at h
    · simp only [h2] at h
      split at h
      · rw [List.mem_singleton.mp h]
        exact Or.inr (Or.inl ⟨d, List.mem_of_find?_eq_some h2, rfl⟩)
      · have hm := mem_sortStrs.mp h
        rw [getFilesM] at hm
        exact Or.inr (Or.inr (List.mem_filter.mp hm).1)

theorem cleanList_mem {l : List Str} (hl : cleanListB l = true) {x : Str}
    (hx : x ∈ l) : cleanStrB x = true := by
  rw [cleanListB, List.all_eq_true] at hl
  exact hl x hx

theorem getImports_clean {fs : FileSystem} {cur name : Str} {tf td : List Str}
    {g : Bool} (htf : cleanListB tf = true) (htd : cleanListB td = true)
    (hff : cleanListB fs.files = true) {x : Str}
    (hx : x ∈ getImports fs cur name tf td g) : cleanStrB x = true := by
  rcases getImports_mem hx with h | ⟨d, hd, rfl⟩ | h
  · exact cleanList_mem htf h
  · exact pathJoin_clean (cleanList_mem htd hd) (by decide)
  · exact cleanList_mem hff h

theorem afterSig_subset {line r : Str} (h : afterSig line = some r) :
    ∀ {c : Char}, c ∈ r → c ∈ line := by
  intro c hc
  simp only [afterSig] at h
  split at h
  · split at h
    · injection h with h'
      subst h'
      have h1 := List.drop_subset 3 ((line.drop 3).dropWhile isJsSpace) hc
      have h2 := (List.dropWhile_sublist isJsSpace).subset h1
      exact List.drop_subset 3 line h2
    · cases h
  · cases h

theorem matchesK_clean {k : TKind} {line m1 m2 : Str}
    (h : matchesK k line = some (m1, m2)) (hline : cleanStrB line = true) :
    cleanStrB m1 = true ∧ cleanStrB m2 = true := by
  rw [matchesK] at h
  rcases ha : afterSig line with - | r
  · rw [ha] at h; cases h
  · rw [ha] at h
    have hr : cleanStrB r = true :=
      clean_mono (fun c hc => afterSig_subset ha hc) hline
    cases k with
    | unknownT =>
      simp at h
      obtain ⟨rfl, rfl⟩ := h
      exact ⟨hr, by decide⟩
    | importT | exportT | refT =>
      simp only [] at h
      split at h
      · split at h
        · injection h with h'
          injection h' with ha' hb'
          subst ha'; subst hb'
          refine ⟨by decide, ?_⟩
          refine clean_mono (fun c hc => ?_) hr
          have h1 := List.drop_subset 1 _ hc
          exact List.drop_subset _ r h1
        · injection h with h'
          injection h' with ha' hb'
          subst ha'; subst hb'
          exact ⟨by decide, clean_mono (fun c hc => List.drop_subset _ r hc) hr⟩
      · cases h

theorem configOf_clean {m1 m2 : Str} (h2 : cleanStrB m2 = true) :
    cleanStrB (configOf m1 m2) = true := by
  rw [configOf]
  split
  · decide
  · split
    · decide
    · exact trim_clean h2

theorem splitOnChar_parts_clean {sep : Char} {s : Str} (hs : cleanStrB s = true)
    {part : Str} (hp : part ∈ splitOnChar sep s) : cleanStrB part = true :=
  clean_mono (fun _ hc => splitOnChar_subset hp hc) hs

theorem headD_clean {ps : List Str} (h : ∀ p ∈ ps, cleanStrB p = true) :
    cleanStrB (ps.headD []) = true := by
  cases ps with
  | nil => decide
  | cons p rest => exact h p (List.mem_cons_self p rest)

theorem getD_clean : ∀ (ps : List Str) (n : Nat),
    (∀ p ∈ ps, cleanStrB p = true) → cleanStrB (ps.getD n []) = true
  | [], _, _ => rfl
  | p :: ps, 0, h => h p (List.mem_cons_self p ps)
  | p :: ps, n + 1, h =>
    getD_clean ps n (fun x hx => h x (List.mem_cons_of_mem p hx))

theorem deriveFilename_clean {v p : Str} (hv : cleanStrB v = true)
    (hp : cleanStrB p = true) : cleanStrB (deriveFilename v p) = true := by
  rw [deriveFilename]
  split
  · split
    · exact basename_clean (dirname_clean hp)
    · exact hv
  · split
    · exact basename_clean (dirname_clean hp)
    · exact basenameStrip_clean (basenameStrip_clean hp ".ts".data) ".d".data

theorem sigGen_clean (k : TKind) : cleanStrB (sigGen k) = true := by
  cases k <;> decide

/-! ### Every line a transform emits carries a generated marker -/

theorem elem_facts_single {eol : Str} {X M e : Str} {k : TKind}
    (hsplit : e = X ++ M) (hcl : cleanStrB e = true) (hM : M = sigGen k) :
    GoodElem eol e ∧ ∀ p ∈ splitLines e, isGeneratedAny p = true := by
  refine ⟨goodElem_clean hcl, ?_⟩
  intro p hp
  rw [splitLines_of_clean hcl] at hp
  rw [List.mem_singleton.mp hp, hsplit, hM]
  exact isGeneratedAny_of (k := k) (strContains_suffix X (sigGen k))

theorem elem_facts_double {eol : Str} (he : EolSpec eol) {A R e : Str} {k : TKind}
    (hsplit : e = A ++ eol ++ R) (hA : cleanStrB A = true) (hR : cleanStrB R = true)
    (hAm : ∃ X, A = X ++ sigGen k) (hRm : ∃ Y, R = Y ++ sigGen k) :
    GoodElem eol e ∧ ∀ p ∈ splitLines e, isGeneratedAny p = true := by
  subst hsplit
  refine ⟨goodElem_two hA hR, ?_⟩
  intro p hp
  rw [splitLines_clean_eol he hA, splitLines_of_clean hR] at hp
  rcases List.mem_cons.mp hp with rfl | hp2
  · obtain ⟨X, rfl⟩ := hAm
    exact isGeneratedAny_of (k := k) (strContains_suffix X (sigGen k))
  · rw [List.mem_singleton.mp hp2]
    obtain ⟨Y, rfl⟩ := hRm
    exact isGeneratedAny_of (k := k) (strContains_suffix Y (sigGen k))

theorem syntaxError_facts (eol : Str) (k : TKind) :
    GoodElem eol (transSyntaxError k) ∧
      ∀ p ∈ splitLines (transSyntaxError k), isGeneratedAny p = true := by
  cases k
  · exact elem_facts_single (X := "/// Invalid syntax for ts:import=<fileOrDirectoryName>[,<variableName>] ".data)
      (k := .importT) (by decide) (by decide) rfl
  · exact elem_facts_single (X := "/// Invalid syntax for ts:export=<fileOrDirectoryName>[,<variableName>] ".data)
      (k := .exportT) (by decide) (by decide) rfl
  · exact elem_facts_single (X := "/// Invalid syntax for ts:ref=<fileOrDirectoryName> ".data)
      (k := .refT) (by decide) (by decide) rfl
  · exact elem_facts_single (X := "/// Unknown transform ".data)
      (k := .unknownT) (by decide) (by decide) rfl

theorem transform_elem_facts (env : Env) {eol : Str} (he : EolSpec eol) (k : TKind)
    {f cfg : Str} (henv : cleanEnvB env = true) (hcfg : cleanStrB cfg = true) :
    ∀ e ∈ transformK env eol k f cfg,
      GoodElem eol e ∧ ∀ p ∈ splitLines e, isGeneratedAny p = true := by
  rw [cleanEnvB] at henv
  simp only [Bool.and_eq_true] at henv
  obtain ⟨⟨⟨htf, htd⟩, hff⟩, -⟩ := henv
  have hvars : ∀ p ∈ splitOnChar ',' cfg, cleanStrB p = true :=
    fun p hp => splitOnChar_parts_clean hcfg hp
  have hrfn : cleanStrB (trim ((splitOnChar ',' cfg).headD [])) = true :=
    trim_clean (headD_clean hvars)
  have hrvn : cleanStrB
      (if (splitOnChar ',' cfg).length > 1 then trim ((splitOnChar ',' cfg).getD 1 [])
       else []) = true := by
    split
    · exact trim_clean (getD_clean _ 1 hvars)
    · decide
  intro e heMem
  cases k with
  | unknownT =>
    rw [transformK] at heMem
    rw [List.mem_singleton.mp heMem]
    exact syntaxError_facts eol .unknownT
  | importT =>
    simp only [transformK, kindGetIndexIfDir, kindRemoveExt, if_true] at heMem
    split at heMem
    · split at heMem
      · rw [List.mem_map] at heMem
        obtain ⟨cpf, hcpf, rfl⟩ := heMem
        have hcpf' : cleanStrB cpf = true := getImports_clean htf htd hff hcpf
        have hfn : cleanStrB (deriveFilename
            (if (splitOnChar ',' cfg).length > 1 then trim ((splitOnChar ',' cfg).getD 1 [])
             else []) cpf) = true := deriveFilename_clean hrvn hcpf'
        have hptf : cleanStrB (makeRelativePath (dirname f)
            (if kindRemoveExt .importT = true then removeTsExt cpf else cpf)) = true := by
          refine makeRelativePath_clean ?_
          split
          · exact removeTsExt_clean hcpf'
          · exact hcpf'
        refine elem_facts_single (k := .importT) rfl ?_ rfl
        simp only [kindTemplate]
        refine clean_append (clean_append ?_ (by decide)) (by decide)
        refine clean_append (clean_append (clean_append (clean_append (by decide) hfn)
          (by decide)) ?_) (by decide)
        exact hptf
      · rw [List.mem_singleton.mp heMem]
        refine elem_facts_single (k := .importT) rfl ?_ rfl
        exact clean_append (clean_append (clean_append (by decide) hrfn) (by decide))
          (by decide)
    · rw [List.mem_singleton.mp heMem]
      exact syntaxError_facts eol .importT
  | refT =>
    simp only [transformK, kindGetIndexIfDir, kindRemoveExt, if_true] at heMem
    split at heMem
    · split at heMem
      · rw [List.mem_map] at heMem
        obtain ⟨cpf, hcpf, rfl⟩ := heMem
        have hcpf' : cleanStrB cpf = true := getImports_clean htf htd hff hcpf
        have hptf : cleanStrB (makeRelativePath (dirname f)
            (if kindRemoveExt .refT = true then removeTsExt cpf else cpf)) = true := by
          refine makeRelativePath_clean ?_
          split
          · exact removeTsExt_clean hcpf'
          · exact hcpf'
        refine elem_facts_single (k := .refT) rfl ?_ rfl
        simp only [kindTemplate]
        refine clean_append (clean_append ?_ (by decide)) (by decide)
        exact clean_append (clean_append (by decide) hptf) (by decide)
      · rw [List.mem_singleton.mp heMem]
        refine elem_facts_single (k := .refT) rfl ?_ rfl
        exact clean_append (clean_append (clean_append (by decide) hrfn) (by decide))
          (by decide)
    · rw [List.mem_singleton.mp heMem]
      exact syntaxError_facts eol .refT
  | exportT =>
    simp only [transformK, kindGetIndexIfDir, kindRemoveExt, if_true] at heMem
    split at heMem
    · split at heMem
      · rw [List.mem_map] at heMem
        obtain ⟨cpf, hcpf, rfl⟩ := heMem
        have hcpf' : cleanStrB cpf = true := getImports_clean htf htd hff hcpf
        have hfn : cleanStrB (deriveFilename
            (if (splitOnChar ',' cfg).length > 1 then trim ((splitOnChar ',' cfg).getD 1 [])
             else []) cpf) = true := deriveFilename_clean hrvn hcpf'
        have hptf : cleanStrB (makeRelativePath (dirname f)
            (if kindRemoveExt .exportT = true then removeTsExt cpf else cpf)) = true := by
          refine makeRelativePath_clean ?_
          split
          · exact removeTsExt_clean hcpf'
          · exact hcpf'
        refine elem_facts_double he (A :=
            "import ".data ++ deriveFilename
              (if (splitOnChar ',' cfg).length > 1 then trim ((splitOnChar ',' cfg).getD 1 [])
               else []) cpf ++ "_file = require('".data ++ makeRelativePath (dirname f)
              (if kindRemoveExt .exportT = true then removeTsExt cpf else cpf)
              ++ "'); ".data ++ sigGen .exportT)
          (R :=
            "export var ".data ++ deriveFilename
              (if (splitOnChar ',' cfg).length > 1 then trim ((splitOnChar ',' cfg).getD 1 [])
               else []) cpf ++ " = ".data ++ deriveFilename
              (if (splitOnChar ',' cfg).length > 1 then trim ((splitOnChar ',' cfg).getD 1 [])
               else []) cpf ++ "_file;".data ++ " ".data ++ sigGen .exportT)
          (k := .exportT) ?_ ?_ ?_ ⟨_, rfl⟩ ⟨_, rfl⟩
        · simp only [kindTemplate, kindRemoveExt, if_true, List.append_assoc]
        · refine clean_append (clean_append (clean_append (clean_append
            (clean_append (by decide) hfn) (by decide)) hptf) (by decide)) (by decide)
        · refine clean_append (clean_append (clean_append (clean_append
            (clean_append (clean_append (by decide) hfn) (by decide)) hfn)
            (by decide)) (by decide)) (by decide)
      · rw [List.mem_singleton.mp heMem]
        refine elem_facts_single (k := .exportT) rfl ?_ rfl
        exact clean_append (clean_append (clean_append (by decide) hrfn) (by decide))
          (by decide)
    · rw [List.mem_singleton.mp heMem]
      exact syntaxError_facts eol .exportT

/-! ### The rewrite loop as a per-line fold -/

theorem splitLines_cr {rest : Str} (hne : ∀ r2 : Str, rest ≠ '\n' :: r2) :
    splitLines ('\r' :: rest) = [] :: splitLines rest := by
  rw [splitLines.eq_def]
  split
  · rename_i h; simp at h
  · rename_i h
    injection h with h1 h2
    exact absurd h2 (hne _)
  · rename_i h
    injection h with h1 h2
    subst h2
    rfl
  · rename_i h
    injection h with h1 h2
    exact absurd h1 (by decide)
  · rename_i hs1 hs2 hs3 h
    injection h with h1 h2
    exact absurd h1.symm hs2

theorem splitLines_all_clean : ∀ (s : Str), ∀ l ∈ splitLines s, cleanStrB l = true := by
  intro s
  induction s using splitLines.induct with
  | case1 =>
    intro l hl
    have hl' : l ∈ [([] : Str)] := hl
    rw [List.mem_singleton.mp hl']
    rfl
  | case2 rest ih =>
    intro l hl
    have hl' : l ∈ ([] : Str) :: splitLines rest := hl
    rcases List.mem_cons.mp hl' with rfl | h
    · rfl
    · exact ih l h
  | case3 rest hne ih =>
    intro l hl
    rw [splitLines_cr (fun r2 h => hne r2 h)] at hl
    rcases List.mem_cons.mp hl with rfl | h
    · rfl
    · exact ih l h
  | case4 rest ih =>
    intro l hl
    have hl' : l ∈ ([] : Str) :: splitLines rest := hl
    rcases List.mem_cons.mp hl' with rfl | h
    · rfl
    · exact ih l h
  | case5 c rest h1 h2 h3 hnil ih =>
    exact absurd hnil (splitLines_ne_nil rest)
  | case6 c rest h1 h2 h3 x xs heq ih =>
    intro l hl
    rw [splitLines_cons_clean (fun hc => h2 hc) (fun hc => h3 hc), heq] at hl
    rcases List.mem_cons.mp hl with rfl | h
    · exact clean_cons (fun hc => h2 hc) (fun hc => h3 hc)
        (ih _ (by rw [heq]; exact List.mem_cons_self x xs))
    · exact ih l (by rw [heq]; exact List.mem_cons_of_mem x h)

theorem transformLoop_flat (env : Env) (eol f : Str) :
    ∀ (lines acc : List Str),
      transformLoop env eol f acc lines =
        acc ++ (lines.map (stepLine env eol f)).flatten
  | [], acc => by rw [transformLoop]; simp
  | line :: rest, acc => by
    rw [List.map_cons, List.flatten_cons, transformLoop]
    by_cases hgen : isGeneratedAny line = true
    · rw [if_pos hgen, stepLine, if_pos hgen, transformLoop_flat env eol f rest acc]
      simp
    · rw [if_neg hgen, stepLine, if_neg hgen]
      rcases hfm : firstMatch line with - | km <;> simp only [hfm]
      · rw [transformLoop_flat env eol f rest _]
        simp
      · rw [transformLoop_flat env eol f rest _]
        simp

theorem flatten_map_flatten {α β γ : Type} (g : β → List γ) (h : α → List β) :
    ∀ xs : List α,
      (((xs.map h).flatten).map g).flatten =
        (xs.map (fun x => ((h x).map g).flatten)).flatten
  | [] => rfl
  | x :: xs => by
    rw [List.map_cons, List.flatten_cons, List.map_append, List.flatten_append,
      flatten_map_flatten g h xs, List.map_cons, List.flatten_cons]

theorem flatten_map_nil {α β : Type} (g : α → List β) :
    ∀ {xs : List α}, (∀ x ∈ xs, g x = []) → (xs.map g).flatten = []
  | [], _ => rfl
  | x :: xs, h => by
    rw [List.map_cons, List.flatten_cons, h x (List.mem_cons_self x xs),
      flatten_map_nil g (fun y hy => h y (List.mem_cons_of_mem x hy))]
    rfl

theorem firstMatch_matchesK {l : Str} {km : TKind × Str × Str}
    (h : firstMatch l = some km) : matchesK km.1 l = some (km.2.1, km.2.2) := by
  rw [firstMatch] at h
  rcases h1 : matchesK .importT l with - | m <;> rw [h1] at h
  · rcases h2 : matchesK .exportT l with - | m <;> rw [h2] at h
    · rcases h3 : matchesK .refT l with - | m <;> rw [h3] at h
      · rcases h4 : matchesK .unknownT l with - | m <;> rw [h4] at h
        · cases h
        · injection h with h'
          rw [← h']
          exact h4
      · injection h with h'
        rw [← h']
        exact h3
    · injection h with h'
      rw [← h']
      exact h2
  · injection h with h'
    rw [← h']
    exact h1

theorem stepLine_elem_facts (env : Env) {eol : Str} (he : EolSpec eol) (f : Str)
    (henv : cleanEnvB env = true) {l : Str} (hl : cleanStrB l = true) :
    ∀ e ∈ stepLine env eol f l, GoodElem eol e := by
  intro e hee
  rw [stepLine] at hee
  split at hee
  · cases hee
  · rcases hfm : firstMatch l with - | km <;> rw [hfm] at hee
    · rw [List.mem_singleton.mp hee]
      exact goodElem_clean hl
    · rcases List.mem_cons.mp hee with rfl | hT
      · exact goodElem_clean hl
      · have hm := firstMatch_matchesK hfm
        have hcfg : cleanStrB (configOf km.2.1 km.2.2) = true :=
          configOf_clean (matchesK_clean hm hl).2
        exact (transform_elem_facts env he km.1 henv hcfg _ hT).1

theorem stepLine_reprocess (env : Env) {eol : Str} (he : EolSpec eol) (f : Str)
    (henv : cleanEnvB env = true) {l : Str} (hl : cleanStrB l = true) :
    (((stepLine env eol f l).map splitLines).flatten.map (stepLine env eol f)).flatten
      = stepLine env eol f l := by
  by_cases hgen : isGeneratedAny l = true
  · rw [stepLine, if_pos hgen]
    rfl
  · rw [stepLine, if_neg hgen]
    rcases hfm : firstMatch l with - | km <;> simp only [hfm]
    · rw [List.map_cons, List.map_nil, splitLines_of_clean hl, List.flatten_cons,
        List.flatten_nil, List.append_nil, List.map_cons, List.map_nil,
        List.flatten_cons, List.flatten_nil, List.append_nil, stepLine, if_neg hgen]
      simp only [hfm]
    · have hm := firstMatch_matchesK hfm
      have hcfg : cleanStrB (configOf km.2.1 km.2.2) = true :=
        configOf_clean (matchesK_clean hm hl).2
      have hT := @transform_elem_facts env eol he km.1 f (configOf km.2.1 km.2.2)
        henv hcfg
      rw [List.map_cons, List.flatten_cons, splitLines_of_clean hl, List.map_append,
        List.flatten_append]
      have hhead : ((List.map (stepLine env eol f) [l]).flatten) = l ::
          transformK env eol km.1 f (configOf km.2.1 km.2.2) := by
        rw [List.map_cons, List.map_nil, List.flatten_cons, List.flatten_nil,
          List.append_nil, stepLine, if_neg hgen]
        simp only [hfm]
      rw [hhead]
      have hrest : (((transformK env eol km.1 f (configOf km.2.1 km.2.2)).map
          splitLines).flatten.map (stepLine env eol f)).flatten = [] := by
        refine flatten_map_nil _ ?_
        intro p hp
        rw [List.mem_flatten] at hp
        obtain ⟨pl, hpl, hppl⟩ := hp
        rw [List.mem_map] at hpl
        obtain ⟨e, heT, rfl⟩ := hpl
        have hpgen := (hT e heT).2 p hppl
        rw [stepLine, if_pos hpgen]
      rw [hrest]
      simp

/-- Idempotence of the unconditioned rewrite (split, filter/expand, join) on
any content, for newline-free environment paths. -/
theorem rewriteContent_idem (env : Env) {eol : Str} (he : EolSpec eol) (f : Str)
    (henv : cleanEnvB env = true) (c : Str) :
    rewriteContent env eol f (rewriteContent env eol f c) =
      rewriteContent env eol f c := by
  have hstep : ∀ c0 : Str, rewriteContent env eol f c0 =
      (((splitLines c0).map (stepLine env eol f)).flatten |> joinSep eol) := by
    intro c0
    rw [rewriteContent, transformLoop_flat]
    rfl
  by_cases hnil : ((splitLines c).map (stepLine env eol f)).flatten = []
  · rw [hstep c, hnil]
    rw [show joinSep eol [] = [] from rfl]
    rw [hstep []]
    rw [show splitLines ([] : Str) = [[]] from rfl, List.map_cons, List.map_nil]
    rw [show stepLine env eol f [] = [[]] from by
      rw [stepLine, if_neg (by decide)]
      simp only [show firstMatch [] = none from by decide]]
    rfl
  · rw [hstep c]
    have hgood : ∀ e ∈ ((splitLines c).map (stepLine env eol f)).flatten,
        GoodElem eol e := by
      intro e hee
      rw [List.mem_flatten] at hee
      obtain ⟨el, hel, heel⟩ := hee
      rw [List.mem_map] at hel
      obtain ⟨l, hlmem, rfl⟩ := hel
      exact stepLine_elem_facts env he f henv (splitLines_all_clean c l hlmem) e heel
    rw [hstep _]
    rw [splitLines_joinSep_flat he hnil hgood]
    rw [flatten_map_flatten (stepLine env eol f) splitLines]
    rw [flatten_map_flatten]
    have hcong : ((splitLines c).map (fun l =>
        ((stepLine env eol f l).map
          (fun e => ((splitLines e).map (stepLine env eol f)).flatten)).flatten)) =
        (splitLines c).map (stepLine env eol f) := by
      refine List.map_congr_left ?_
      intro l hlmem
      rw [← flatten_map_flatten (stepLine env eol f) splitLines (stepLine env eol f l)]
      exact stepLine_reprocess env he f henv (splitLines_all_clean c l hlmem)
    rw [hcong]

/-! ### The claims -/

/-- C1: for every source file content and fixed Target File Set / Target
Folder Set (with newline-free paths, per the spec's well-formed-path
contract) and host line ending, applying the rewrite transformation twice
yields the same output as applying it once, and on the second application
the transformed content equals its input, so no write is performed. -/
theorem c1_rewrite_idempotent (env : Env) (eol f c : Str) (he : EolSpec eol)
    (henv : cleanEnvB env = true) :
    transformContent env eol f (transformContent env eol f c) =
        transformContent env eol f c ∧
      writeOccursB env eol f (transformContent env eol f c) = false := by
  have hmain : transformContent env eol f (transformContent env eol f c) =
      transformContent env eol f c := by
    rw [transformContent]
    split
    · rename_i hs'
      by_cases hsig : containsTransformSignature c = true
      · rw [transformContent, if_pos hsig]
        exact rewriteContent_idem env he f henv c
      · rw [transformContent, if_neg hsig] at hs'
        exact absurd hs' hsig
    · rfl
  refine ⟨hmain, ?_⟩
  rw [writeOccursB, hmain]
  simp

/-- Witness for C1 at a concrete environment and content. -/
theorem c1_witness :
    transformContent ⟨["foo.ts".data], [], ⟨[], []⟩⟩ ['\n'] "a.ts".data
        (transformContent ⟨["foo.ts".data], [], ⟨[], []⟩⟩ ['\n'] "a.ts".data
          "///ts:import=foo\nhello".data) =
      transformContent ⟨["foo.ts".data], [], ⟨[], []⟩⟩ ['\n'] "a.ts".data
        "///ts:import=foo\nhello".data ∧
    writeOccursB ⟨["foo.ts".data], [], ⟨[], []⟩⟩ ['\n'] "a.ts".data
      (transformContent ⟨["foo.ts".data], [], ⟨[], []⟩⟩ ['\n'] "a.ts".data
        "///ts:import=foo\nhello".data) = false :=
  c1_rewrite_idempotent ⟨["foo.ts".data], [], ⟨[], []⟩⟩ ['\n'] "a.ts".data
    "///ts:import=foo\nhello".data eolSpec_lf (by decide)

/-- C2: the rewrite loop's output is the per-line images concatenated in the
original line order — a generated-marker line contributes nothing, a
directive line contributes itself followed by its freshly generated block,
and every other line contributes itself unchanged. -/
theorem c2_output_line_order (env : Env) (eol sourceFile : Str)
    (acc lines : List Str) :
    transformLoop env eol sourceFile acc lines =
        acc ++ (lines.map (stepLine env eol sourceFile)).flatten ∧
      (∀ line : Str, isGeneratedAny line = true →
        stepLine env eol sourceFile line = []) ∧
      (∀ (line : Str) (km : TKind × Str × Str), isGeneratedAny line = false →
        firstMatch line = some km →
        stepLine env eol sourceFile line =
          line :: transformK env eol km.1 sourceFile (configOf km.2.1 km.2.2)) ∧
      (∀ line : Str, isGeneratedAny line = false → firstMatch line = none →
        stepLine env eol sourceFile line = [line]) := by
  refine ⟨transformLoop_flat env eol sourceFile lines acc, ?_, ?_, ?_⟩
  · intro line hgen
    rw [stepLine, if_pos hgen]
  · intro line km hgen hfm
    rw [stepLine, if_neg (by rw [hgen]; exact Bool.false_ne_true)]
    simp only [hfm]
  · intro line hgen hfm
    rw [stepLine, if_neg (by rw [hgen]; exact Bool.false_ne_true)]
    simp only [hfm]

/-- Witness for C2 on a concrete line list. -/
theorem c2_witness :
    transformLoop ⟨[], [], ⟨[], []⟩⟩ ['\n'] "m.ts".data [] ["hello".data] =
      [] ++ ((["hello".data].map
        (stepLine ⟨[], [], ⟨[], []⟩⟩ ['\n'] "m.ts".data)).flatten) :=
  (c2_output_line_order ⟨[], [], ⟨[], []⟩⟩ ['\n'] "m.ts".data [] ["hello".data]).1

/-- C3 counterexample: a changed file whose content `"a\rb"` has no
directive signature is not written (the fast path returns before the write),
yet the joined transformed content — line terminators normalized to the host
ending — differs from the original, so "a write occurs if and only if the
joined transformed content differs" fails in the only-if-not direction. -/
theorem c3_counterexample :
    processChangedFile ⟨[], [], ⟨[], []⟩⟩ ['\n'] "m.ts".data "a\rb".data = none ∧
      rewriteContent ⟨[], [], ⟨[], []⟩⟩ ['\n'] "m.ts".data
          (stripBOMStr "a\rb".data) ≠
        stripBOMStr "a\rb".data := by
  constructor
  · decide
  · decide

/-- C3 amended: a write occurs iff the BOM-stripped content contains a
directive signature AND the joined transformed content differs from it; in
particular a signature-free file is never written, even when line-ending
normalization alone would change it, and an identity transformation never
writes. -/
theorem c3_amended_write_iff (env : Env) (eol fileToProcess raw : Str) :
    (processChangedFile env eol fileToProcess raw).isSome =
        (containsTransformSignature (stripBOMStr raw) &&
          !(rewriteContent env eol fileToProcess (stripBOMStr raw) ==
            stripBOMStr raw)) ∧
      (containsTransformSignature (stripBOMStr raw) = false →
        processChangedFile env eol fileToProcess raw = none) := by
  constructor
  · simp only [processChangedFile]
    split
    · rename_i hsig
      split
      · rename_i hne
        simp [hsig, hne]
      · rename_i hne
        rw [not_not] at hne
        simp [hsig, hne]
    · rename_i hsig
      rw [Bool.not_eq_true] at hsig
      simp [hsig]
  · intro hsig
    simp only [processChangedFile]
    rw [hsig]
    simp

/-- Witness for C3's amended claim on a signature-free file. -/
theorem c3_amended_witness :
    processChangedFile ⟨[], [], ⟨[], []⟩⟩ ['\n'] "m.ts".data "a\rb".data = none :=
  (c3_amended_write_iff ⟨[], [], ⟨[], []⟩⟩ ['\n'] "m.ts".data "a\rb".data).2
    (by decide)

/-- The kept entries of the directory expansion, as the source's exclusion
callback actually decides them: not the current file, and extension-less,
plain `.ts`, or listed as a directory. -/
theorem dirExclude_keep (fs : FileSystem) (cur fl : Str) :
    (!(dirExcludeB fs cur fl)) =
      (!(pathRelEq cur fl) &&
        (extname fl == [] ||
          (endsWithStr fl ".ts".data && !(endsWithStr fl ".d.ts".data)) ||
          isDirB fs fl)) := by
  cases hrel : pathRelEq cur fl <;>
    cases hext : (extname fl == []) <;>
    cases hts : endsWithStr fl ".ts".data <;>
    cases hdts : endsWithStr fl ".d.ts".data <;>
    cases hdir : isDirB fs fl <;>
    simp [dirExcludeB, hrel, hext, hts, hdts, hdir]

/-- C4 counterexample: in a directory `d` containing only `d/a.html`
(a member file with an extension, not a declaration variant, not a
sub-directory, not the current file), the resolver returns nothing, while
the claim's description of the expansion returns `d/a.html` — the source's
callback also excludes every file whose extension is not `.ts`. -/
theorem c4_counterexample :
    getImports ⟨["d/a.html".data], ["d".data]⟩ "x.ts".data "d".data
        ["d/a.html".data] ["d".data] false = [] ∧
      specC4DirMembers ⟨["d/a.html".data], ["d".data]⟩ "x.ts".data "d".data =
        ["d/a.html".data] := by
  constructor
  · decide
  · decide

/-- C4 amended: when a directory-name match exists and the index-preference
branch is not taken, the resolver returns (after the file-name match, if
any) exactly the member files of that directory that are not the current
file and are either extension-less, plain `.ts` files (ending in `.ts` but
not `.d.ts`), or paths also listed as directories — declaration files and
files with any other extension are always excluded — sorted
lexicographically. -/
theorem c4_amended_dir_members (fs : FileSystem) (cur name d : Str)
    (tf td : List Str) (g : Bool)
    (hd : td.find? (fun targetDir => basename targetDir == name) = some d)
    (hbranch : (g && existsSyncB fs (pathJoin d "index.ts".data)
        && !(pathRelEq cur (pathJoin d "index.ts".data))) = false) :
    getImports fs cur name tf td g =
      fileMatchList name tf ++
        sortStrs (fs.files.filter (fun fl => dirname fl == d &&
          (!(pathRelEq cur fl) &&
            (extname fl == [] ||
              (endsWithStr fl ".ts".data && !(endsWithStr fl ".d.ts".data)) ||
              isDirB fs fl)))) := by
  rw [getImports_eq, dirResolvePart]
  simp only [hd, hbranch, Bool.false_eq_true, if_false, getFilesM]
  congr 2
  refine List.filter_congr ?_
  intro x hx
  rw [dirExclude_keep]

/-- Witness for C4's amended claim at a concrete directory. -/
theorem c4_amended_witness :
    getImports ⟨["d/a.html".data, "d/b.ts".data], ["d".data]⟩ "x.ts".data "d".data
        ["d/a.html".data, "d/b.ts".data] ["d".data] false =
      fileMatchList "d".data ["d/a.html".data, "d/b.ts".data] ++
        sortStrs ((["d/a.html".data, "d/b.ts".data] : List Str).filter
          (fun fl => dirname fl == "d".data &&
            (!(pathRelEq "x.ts".data fl) &&
              (extname fl == [] ||
                (endsWithStr fl ".ts".data && !(endsWithStr fl ".d.ts".data)) ||
                isDirB ⟨["d/a.html".data, "d/b.ts".data], ["d".data]⟩ fl)))) :=
  c4_amended_dir_members ⟨["d/a.html".data, "d/b.ts".data], ["d".data]⟩
    "x.ts".data "d".data "d".data ["d/a.html".data, "d/b.ts".data] ["d".data] false
    (by decide) (by decide)

/-- C5: when a directory whose base name matches the requested name contains
an index file that is not the current file, the import kind (directory-index
preference enabled) resolves the directory part to just that index file; the
export and ref kinds (preference disabled) resolve it to the directory's
member files and never collapse to the index; and when the index file is the
current file even the import kind falls back to the member files, from which
the current file — the index — is excluded. -/
theorem c5_index_collapse (fs : FileSystem) (cur name d : Str) (tf td : List Str)
    (hd : td.find? (fun targetDir => basename targetDir == name) = some d)
    (hidx : existsSyncB fs (pathJoin d "index.ts".data) = true)
    (hcur : pathRelEq cur (pathJoin d "index.ts".data) = false) :
    kindGetIndexIfDir .importT = true ∧
    kindGetIndexIfDir .exportT = false ∧
    kindGetIndexIfDir .refT = false ∧
    getImports fs cur name tf td (kindGetIndexIfDir .importT) =
      fileMatchList name tf ++ [pathJoin d "index.ts".data] ∧
    getImports fs cur name tf td (kindGetIndexIfDir .exportT) =
      fileMatchList name tf ++ sortStrs (getFilesM fs d (dirExcludeB fs cur)) ∧
    getImports fs (pathJoin d "index.ts".data) name tf td true =
      fileMatchList name tf ++ sortStrs (getFilesM fs d
        (dirExcludeB fs (pathJoin d "index.ts".data))) ∧
    pathJoin d "index.ts".data ∉ sortStrs (getFilesM fs d
      (dirExcludeB fs (pathJoin d "index.ts".data))) := by
  refine ⟨rfl, rfl, rfl, ?_, ?_, ?_, ?_⟩
  · rw [getImports_eq, dirResolvePart]
    simp only [hd, kindGetIndexIfDir, hidx, hcur]
    simp
  · rw [getImports_eq, dirResolvePart]
    simp only [hd, kindGetIndexIfDir]
    simp
  · rw [getImports_eq, dirResolvePart]
    simp only [hd]
    rw [show pathRelEq (pathJoin d "index.ts".data) (pathJoin d "index.ts".data)
      = true from by rw [pathRelEq]; simp]
    simp
  · intro hmem
    have h1 := mem_sortStrs.mp hmem
    rw [getFilesM, List.mem_filter] at h1
    have h2 := h1.2
    rw [Bool.and_eq_true] at h2
    have h3 := h2.2
    rw [dirExcludeB] at h3
    rw [show pathRelEq (pathJoin d "index.ts".data) (pathJoin d "index.ts".data)
      = true from by rw [pathRelEq]; simp] at h3
    simp at h3

/-- Witness for C5: directory `lib` with `lib/index.ts` and `lib/a.ts`. -/
theorem c5_witness :
    kindGetIndexIfDir .importT = true ∧
    kindGetIndexIfDir .exportT = false ∧
    kindGetIndexIfDir .refT = false ∧
    getImports ⟨["lib/index.ts".data, "lib/a.ts".data], ["lib".data]⟩ "main.ts".data
        "lib".data ["lib/index.ts".data, "lib/a.ts".data] ["lib".data]
        (kindGetIndexIfDir .importT) =
      fileMatchList "lib".data ["lib/index.ts".data, "lib/a.ts".data] ++
        [pathJoin "lib".data "index.ts".data] ∧
    getImports ⟨["lib/index.ts".data, "lib/a.ts".data], ["lib".data]⟩ "main.ts".data
        "lib".data ["lib/index.ts".data, "lib/a.ts".data] ["lib".data]
        (kindGetIndexIfDir .exportT) =
      fileMatchList "lib".data ["lib/index.ts".data, "lib/a.ts".data] ++
        sortStrs (getFilesM ⟨["lib/index.ts".data, "lib/a.ts".data], ["lib".data]⟩
          "lib".data (dirExcludeB ⟨["lib/index.ts".data, "lib/a.ts".data],
            ["lib".data]⟩ "main.ts".data)) ∧
    getImports ⟨["lib/index.ts".data, "lib/a.ts".data], ["lib".data]⟩
        (pathJoin "lib".data "index.ts".data) "lib".data
        ["lib/index.ts".data, "lib/a.ts".data] ["lib".data] true =
      fileMatchList "lib".data ["lib/index.ts".data, "lib/a.ts".data] ++
        sortStrs (getFilesM ⟨["lib/index.ts".data, "lib/a.ts".data], ["lib".data]⟩
          "lib".data (dirExcludeB ⟨["lib/index.ts".data, "lib/a.ts".data],
            ["lib".data]⟩ (pathJoin "lib".data "index.ts".data))) ∧
    pathJoin "lib".data "index.ts".data ∉
      sortStrs (getFilesM ⟨["lib/index.ts".data, "lib/a.ts".data], ["lib".data]⟩
        "lib".data (dirExcludeB ⟨["lib/index.ts".data, "lib/a.ts".data],
          ["lib".data]⟩ (pathJoin "lib".data "index.ts".data))) :=
  c5_index_collapse ⟨["lib/index.ts".data, "lib/a.ts".data], ["lib".data]⟩
    "main.ts".data "lib".data "lib".data
    ["lib/index.ts".data, "lib/a.ts".data] ["lib".data]
    (by decide) (by decide) (by decide)

/-- C6 counterexample: for the resolved path `d/Index.ts` with no explicit
alias, the claim's alias (`specAliasC6`) is the stripped base name `Index`
(not literally `"index"`, so no replacement), but the engine lowercases
before comparing and emits the enclosing directory's name `d` instead. -/
theorem c6_counterexample :
    deriveFilename [] "d/Index.ts".data = "d".data ∧
      specAliasC6 [] "d/Index.ts".data = "Index".data ∧
      "d".data ≠ "Index".data := by
  refine ⟨by decide, by decide, by decide⟩

/-- C6 amended: the alias starts from the explicit second parameter when one
is supplied (and otherwise from the base name with its `.ts` and `.d`
suffixes stripped), and whichever was chosen is replaced by the enclosing
directory's name exactly when it equals `"index"` case-insensitively — the
replacement also applies to an explicitly supplied alias. -/
theorem c6_amended_alias (v p : Str) :
    (v ≠ [] → toLowerStr v ≠ "index".data → deriveFilename v p = v) ∧
    (v ≠ [] → toLowerStr v = "index".data →
      deriveFilename v p = basename (dirname p)) ∧
    (v = [] →
      toLowerStr (basenameStrip (basenameStrip p ".ts".data) ".d".data) ≠
        "index".data →
      deriveFilename v p = basenameStrip (basenameStrip p ".ts".data) ".d".data) ∧
    (v = [] →
      toLowerStr (basenameStrip (basenameStrip p ".ts".data) ".d".data) =
        "index".data →
      deriveFilename v p = basename (dirname p)) := by
  refine ⟨?_, ?_, ?_, ?_⟩
  · intro hv hlow
    rw [deriveFilename, if_pos hv, if_neg (by rw [beq_iff_eq]; exact hlow)]
  · intro hv hlow
    rw [deriveFilename, if_pos hv, if_pos (by rw [beq_iff_eq]; exact hlow)]
  · intro hv hlow
    subst hv
    rw [deriveFilename, if_neg (show ¬(([] : Str) ≠ []) from by simp),
      if_neg (by rw [beq_iff_eq]; exact hlow)]
  · intro hv hlow
    subst hv
    rw [deriveFilename, if_neg (show ¬(([] : Str) ≠ []) from by simp),
      if_pos (by rw [beq_iff_eq]; exact hlow)]

/-- Witness for C6's amended claim. -/
theorem c6_amended_witness : deriveFilename "x".data "d/a.ts".data = "x".data :=
  (c6_amended_alias "x".data "d/a.ts".data).1 (by decide) (by decide)

/-- C7 counterexample: the line `///ts:importfoo` bears a directive
signature whose keyword `importfoo` is none of `import` / `export` / `ref`,
yet it is claimed by the import kind (whose regex only anchors the keyword
as a prefix), producing import's syntax-error line rather than the unknown
kind's fixed line. -/
theorem c7_counterexample :
    sigKeyword "///ts:importfoo".data = some "importfoo".data ∧
    ("importfoo".data ≠ "import".data ∧ "importfoo".data ≠ "export".data ∧
      "importfoo".data ≠ "ref".data) ∧
    firstMatch "///ts:importfoo".data = some (.importT, [], "foo".data) ∧
    stepLine ⟨[], [], ⟨[], []⟩⟩ ['\n'] "m.ts".data "///ts:importfoo".data =
      ["///ts:importfoo".data, transSyntaxError .importT] ∧
    transSyntaxError .importT ≠ transSyntaxError .unknownT := by
  refine ⟨by decide, ⟨by decide, by decide, by decide⟩, by decide, by decide,
    by decide⟩

/-- C7 amended: a directive-signature line on which none of the three
recognized matchers succeeds is claimed by the unknown kind — exactly one
matcher matches it, the priority scan yields the unknown kind — and the
unknown transform ignores its parameters, emitting the single fixed
"unrecognized directive" comment line. -/
theorem c7_amended_unknown (env : Env) (eol f line r cfg : Str)
    (hsig : afterSig line = some r)
    (h1 : matchesK .importT line = none)
    (h2 : matchesK .exportT line = none)
    (h3 : matchesK .refT line = none) :
    matchesK .unknownT line = some (r, []) ∧
    firstMatch line = some (.unknownT, r, []) ∧
    transformK env eol .unknownT f cfg = [transSyntaxError .unknownT] := by
  have hu : matchesK .unknownT line = some (r, []) := by
    rw [matchesK, hsig]
  refine ⟨hu, ?_, rfl⟩
  rw [firstMatch, h1, h2, h3, hu]

/-- Witness for C7's amended claim on `///ts:frob=x`. -/
theorem c7_amended_witness :
    matchesK .unknownT "///ts:frob=x".data = some ("frob=x".data, []) ∧
    firstMatch "///ts:frob=x".data = some (.unknownT, "frob=x".data, []) ∧
    transformK ⟨[], [], ⟨[], []⟩⟩ ['\n'] .unknownT "m.ts".data "frob=x".data =
      [transSyntaxError .unknownT] :=
  c7_amended_unknown ⟨[], [], ⟨[], []⟩⟩ ['\n'] "m.ts".data "///ts:frob=x".data
    "frob=x".data "frob=x".data (by decide) (by decide) (by decide) (by decide)

/-- C8: a line matched by a recognized kind with the equals-flag capture
empty (the `=` separator absent) is rewritten to the directive line followed
by exactly that kind's fixed syntax-error comment naming the expected
parameter grammar, whatever the environment — the Target File Set is never
consulted. -/
theorem c8_missing_equals (env : Env) (eol f line m2 : Str) (k : TKind)
    (hgen : isGeneratedAny line = false)
    (hfm : firstMatch line = some (k, [], m2))
    (hk : k ≠ TKind.unknownT) :
    stepLine env eol f line = [line, transSyntaxError k] := by
  rw [stepLine, if_neg (by rw [hgen]; exact Bool.false_ne_true)]
  simp only [hfm]
  have hcfg : configOf [] m2 = [] := by rw [configOf, if_pos rfl]
  rw [hcfg]
  cases k with
  | unknownT => exact absurd rfl hk
  | importT => rfl
  | exportT => rfl
  | refT => rfl

/-- Witness for C8 on `///ts:import`. -/
theorem c8_witness :
    stepLine ⟨["x.ts".data], [], ⟨[], []⟩⟩ ['\n'] "m.ts".data "///ts:import".data =
      ["///ts:import".data, transSyntaxError .importT] :=
  c8_missing_equals ⟨["x.ts".data], [], ⟨[], []⟩⟩ ['\n'] "m.ts".data
    "///ts:import".data [] .importT (by decide) (by decide) (by decide)

/-- C9: the resolver's result is always the file-name match (at most one
entry — the first Target File Set entry matching under the full,
`.d.ts`-stripped or `.ts`-stripped comparison) followed by the
directory-derived paths, so when a file and a directory share the requested
name both contribute, file match first. -/
theorem c9_file_match_first (fs : FileSystem) (cur name : Str)
    (tf td : List Str) (g : Bool) :
    getImports fs cur name tf td g =
        fileMatchList name tf ++ dirResolvePart fs cur name td g ∧
      (fileMatchList name tf).length ≤ 1 ∧
      ∀ t : Str, tf.find? (fun targetFile => fileNameMatches name targetFile) = some t →
        fileNameMatches name t = true ∧
          ∃ pre post : List Str, tf = pre ++ t :: post ∧
            ∀ u ∈ pre, fileNameMatches name u = false := by
  refine ⟨getImports_eq fs cur name tf td g, ?_, ?_⟩
  · rw [fileMatchList]
    cases tf.find? (fun targetFile => fileNameMatches name targetFile) <;> simp
  · intro t ht
    refine ⟨List.find?_some ht, ?_⟩
    clear g
    induction tf with
    | nil => cases ht
    | cons x xs ih =>
      by_cases hx : fileNameMatches name x = true
      · rw [List.find?_cons_of_pos _ hx] at ht
        injection ht with ht'
        subst ht'
        exact ⟨[], xs, rfl, by intro u hu; cases hu⟩
      · rw [List.find?_cons_of_neg _ (by simpa using hx)] at ht
        obtain ⟨pre, post, heq, hpre⟩ := ih ht
        refine ⟨x :: pre, post, by rw [heq]; rfl, ?_⟩
        intro u hu
        rcases List.mem_cons.mp hu with rfl | hu2
        · simpa using hx
        · exact hpre u hu2

/-- Witness for C9: a file `n.ts` and a directory `n` share the requested
name `n`; the file match comes first. -/
theorem c9_witness :
    getImports ⟨["n.ts".data, "n/a.ts".data], ["n".data]⟩ "m.ts".data "n".data
        ["n.ts".data, "n/a.ts".data] ["n".data] false =
      fileMatchList "n".data ["n.ts".data, "n/a.ts".data] ++
        dirResolvePart ⟨["n.ts".data, "n/a.ts".data], ["n".data]⟩ "m.ts".data
          "n".data ["n".data] false :=
  (c9_file_match_first ⟨["n.ts".data, "n/a.ts".data], ["n".data]⟩ "m.ts".data
    "n".data ["n.ts".data, "n/a.ts".data] ["n".data] false).1

/-- C10: a recognized directive line whose `=` separator is present but
whose parameter string is empty or whitespace-only reaches the transform as
the falsy empty configuration and produces exactly the same fixed
syntax-error comment line as a missing `=`. -/
theorem c10_blank_params (env : Env) (eol f line m2 : Str) (k : TKind)
    (hgen : isGeneratedAny line = false)
    (hfm : firstMatch line = some (k, "=".data, m2))
    (htrim : trim m2 = [])
    (hk : k ≠ TKind.unknownT) :
    configOf "=".data m2 = [] ∧
    stepLine env eol f line = [line, transSyntaxError k] := by
  have hcfg : configOf "=".data m2 = [] := by
    rw [configOf, if_neg (by decide)]
    split
    · rfl
    · exact htrim
  refine ⟨hcfg, ?_⟩
  rw [stepLine, if_neg (by rw [hgen]; exact Bool.false_ne_true)]
  simp only [hfm]
  rw [hcfg]
  cases k with
  | unknownT => exact absurd rfl hk
  | importT => rfl
  | exportT => rfl
  | refT => rfl

/-- Witness for C10 on `///ts:import= ` (equals sign, whitespace only). -/
theorem c10_witness :
    configOf "=".data " ".data = [] ∧
    stepLine ⟨["x.ts".data], [], ⟨[], []⟩⟩ ['\n'] "m.ts".data "///ts:import= ".data =
      ["///ts:import= ".data, transSyntaxError .importT] :=
  c10_blank_params ⟨["x.ts".data], [], ⟨[], []⟩⟩ ['\n'] "m.ts".data
    "///ts:import= ".data " ".data .importT (by decide) (by decide) (by decide)
    (by decide)
